import Mathlib

/-!
Verification development for the `ironcore-search-helpers` module
(`src/lib.rs`): a blind-index generator that normalizes a Unicode string,
splits it into trigrams, hashes each trigram with SHA-256 prefixed by an
optional partition id and a salt, truncates each digest to a big-endian
32-bit value, and optionally pads the resulting set with random values.

The Rust code is shallowly embedded: strings are `List Char`, byte slices
are `List Nat` (each entry < 256), `HashSet` is `Finset`, `Result` is
`Except String`, and the mutex-guarded random generator is an entropy
stream `Nat → Nat` from which every bounded draw is taken by reduction
modulo the range size (a faithful model of a uniform integer draw: each
outcome comes from exactly one residue class).
-/

set_option maxRecDepth 100000
set_option maxHeartbeats 4000000

/-- UTF-8 encoding of one scalar value, as in Rust's `char::len_utf8`/
`str::as_bytes`: 1 to 4 bytes. -/
def utf8Encode (c : Char) : List Nat :=
  if c.toNat < 128 then [c.toNat]
  else if c.toNat < 2048 then [192 + c.toNat / 64, 128 + c.toNat % 64]
  else if c.toNat < 65536 then
    [224 + c.toNat / 4096, 128 + (c.toNat / 64) % 64, 128 + c.toNat % 64]
  else
    [240 + c.toNat / 262144, 128 + (c.toNat / 4096) % 64,
     128 + (c.toNat / 64) % 64, 128 + c.toNat % 64]

/-- Rust `str::len`: the UTF-8 byte length of a string. -/
def byteLen (s : List Char) : Nat := (s.map (fun c => (utf8Encode c).length)).sum

/-- Rust `str::as_bytes` for a whole string. -/
def strBytes (s : List Char) : List Nat := s.flatMap utf8Encode

/-- 32-bit right rotation. -/
def rotr32 (x n : Nat) : Nat := ((x >>> n) ||| (x <<< (32 - n))) % 4294967296

/-- The SHA-256 round constants (FIPS 180-4). -/
def K256 : List Nat :=
  [1116352408, 1899447441, 3049323471, 3921009573, 961987163,
  1508970993, 2453635748, 2870763221, 3624381080, 310598401,
  607225278, 1426881987, 1925078388, 2162078206, 2614888103,
  3248222580, 3835390401, 4022224774, 264347078, 604807628,
  770255983, 1249150122, 1555081692, 1996064986, 2554220882,
  2821834349, 2952996808, 3210313671, 3336571891, 3584528711,
  113926993, 338241895, 666307205, 773529912, 1294757372,
  1396182291, 1695183700, 1986661051, 2177026350, 2456956037,
  2730485921, 2820302411, 3259730800, 3345764771, 3516065817,
  3600352804, 4094571909, 275423344, 430227734, 506948616,
  659060556, 883997877, 958139571, 1322822218, 1537002063,
  1747873779, 1955562222, 2024104815, 2227730452, 2361852424,
  2428436474, 2756734187, 3204031479, 3329325298]

/-- The SHA-256 initial hash state (FIPS 180-4). -/
def H256 : List Nat :=
  [1779033703, 3144134277, 1013904242, 2773480762,
   1359893119, 2600822924, 528734635, 1541459225]

/-- SHA-256 message padding: a 1 bit, zeros to 56 mod 64, then the bit
length as a 64-bit big-endian integer. -/
def shaPadded (msg : List Nat) : List Nat :=
  let L := msg.length
  let zeros := (120 - (L + 1) % 64) % 64
  let bits := 8 * L
  msg ++ [128] ++ List.replicate zeros 0 ++
    [bits / 72057594037927936 % 256, bits / 281474976710656 % 256,
     bits / 1099511627776 % 256, bits / 4294967296 % 256,
     bits / 16777216 % 256, bits / 65536 % 256, bits / 256 % 256, bits % 256]

/-- Big-endian 32-bit words from a byte stream. -/
def bytesToWords : List Nat → List Nat
  | a :: b :: c :: d :: t => (a * 16777216 + b * 65536 + c * 256 + d) :: bytesToWords t
  | _ => []

/-- Split a word stream into 16-word blocks (the padded stream's length is
a multiple of 16; a shorter leftover would pass through as its own block). -/
def chunks16 : List Nat → List (List Nat)
  | a0 :: a1 :: a2 :: a3 :: a4 :: a5 :: a6 :: a7 ::
    a8 :: a9 :: a10 :: a11 :: a12 :: a13 :: a14 :: a15 :: t =>
    [a0, a1, a2, a3, a4, a5, a6, a7, a8, a9, a10, a11, a12, a13, a14, a15] ::
      chunks16 t
  | [] => []
  | l => [l]

def smallSigma0 (x : Nat) : Nat := (rotr32 x 7) ^^^ (rotr32 x 18) ^^^ (x >>> 3)

def smallSigma1 (x : Nat) : Nat := (rotr32 x 17) ^^^ (rotr32 x 19) ^^^ (x >>> 10)

def bigSigma0 (x : Nat) : Nat := (rotr32 x 2) ^^^ (rotr32 x 13) ^^^ (rotr32 x 22)

def bigSigma1 (x : Nat) : Nat := (rotr32 x 6) ^^^ (rotr32 x 11) ^^^ (rotr32 x 25)

/-- The 64-entry message schedule of one block. -/
def scheduleW (m : List Nat) : List Nat :=
  (List.range 64).foldl
    (fun acc i =>
      acc ++ [if i < 16 then m.getD i 0
              else (smallSigma1 (acc.getD (i - 2) 0) + acc.getD (i - 7) 0 +
                    smallSigma0 (acc.getD (i - 15) 0) + acc.getD (i - 16) 0) % 4294967296])
    []

/-- One SHA-256 compression round; the state is the 8-word list [a,...,h]. -/
def shaStep (st : List Nat) (wk : Nat) : List Nat :=
  match st with
  | [a, b, c, d, e, f, g, h] =>
    let ch := (e &&& f) ^^^ ((4294967295 ^^^ e) &&& g)
    let t1 := (h + bigSigma1 e + ch + wk) % 4294967296
    let maj := (a &&& b) ^^^ (a &&& c) ^^^ (b &&& c)
    let t2 := (bigSigma0 a + maj) % 4294967296
    [(t1 + t2) % 4294967296, a, b, c, (d + t1) % 4294967296, e, f, g]
  | l => l

/-- Compress one 16-word block into the running hash state. -/
def shaChunk (h0 : List Nat) (chunk : List Nat) : List Nat :=
  let fin := ((scheduleW chunk).zip K256).foldl (fun st p => shaStep st (p.1 + p.2)) h0
  (h0.zip fin).map (fun p => (p.1 + p.2) % 4294967296)

/-- SHA-256 of a byte sequence, as the 32-byte digest. -/
def sha256 (msg : List Nat) : List Nat :=
  let hs := (chunks16 (bytesToWords (shaPadded msg))).foldl shaChunk H256
  hs.flatMap (fun w => [w / 16777216 % 256, w / 65536 % 256, w / 256 % 256, w % 256])

/-- `as_u32_be` (src/lib.rs): the first four digest bytes as a big-endian
unsigned 32-bit integer. -/
def as_u32_be (s : List Nat) : Nat :=
  (s.getD 0 0) * 16777216 + (s.getD 1 0) * 65536 + (s.getD 2 0) * 256 + s.getD 3 0

/-- `FILTERED_CHARS` (src/lib.rs): the 31 punctuation characters removed
before segmentation. The brace, apostrophe and backtick entries are written
with `Char.ofNat` (code points 123, 125, 39, 96). -/
def FILTERED_CHARS : List Char :=
  ['!', '@', '#', '$', '%', '^', '&', '*', '(', ')', Char.ofNat 123,
   Char.ofNat 125, '_', '<', '>', ':', ';', ',', '.', '"', Char.ofNat 39,
   Char.ofNat 96, '|', '+', '=', '/', '~', '[', ']', '\\', '-']

/-- `should_keep_char` (src/lib.rs): true if the character is not filtered. -/
def should_keep_char (c : Char) : Bool := !(FILTERED_CHARS.contains c)

/-- Model of the third-party `unidecode::unidecode_char` transliteration
table, restricted to the characters this development evaluates concretely:
ASCII maps to itself, and the non-ASCII characters pinned by the
repository's own tests carry their tested transliterations ('é' → "e",
'ú' → "u", 'ñ' → "n", 'İ' → "I", '志' → "Zhi ", '豪' → "Hao ", and the
Carian letter U+102AE → "" meaning no mapping exists). Every other
character is modelled as unmapped (empty transliteration), which the
caller `char_to_trans` keeps verbatim; the full crate table is external
data that is not part of this repository's sources. -/
def unidecode_char (c : Char) : List Char :=
  if c.toNat < 128 then [c]
  else if c = 'é' then ['e']
  else if c = 'ú' then ['u']
  else if c = 'ñ' then ['n']
  else if c = 'İ' then ['I']
  else if c = '志' then ['Z', 'h', 'i', ' ']
  else if c = '豪' then ['H', 'a', 'o', ' ']
  else []

/-- `char_to_trans` (src/lib.rs): the lowercased transliteration when one
exists, otherwise the original character itself (not case-folded). -/
def char_to_trans (c : Char) : List Char :=
  let t := unidecode_char c
  if t = [] then [c] else t.map Char.toLower

/-- The `converted_string` of `make_tri_grams` (src/lib.rs): filter the
special characters out, then transliterate each remaining character. -/
def convertString (s : List Char) : List Char :=
  (s.filter should_keep_char).flatMap char_to_trans

/-- The character class whose maximal runs `unicodeWords` keeps: ASCII
alphanumerics, and every non-ASCII character. -/
def isWordChar (c : Char) : Bool := c.isAlphanum || 128 ≤ c.toNat

/-- Model of `unicode_segmentation`'s `unicode_words`: the maximal runs of
word characters. On the strings this program feeds it (no interior
`MidLetter`/`MidNum` context characters, which the filter has removed),
UAX-29 word segmentation coincides with splitting at non-alphanumeric
characters. -/
def unicodeWords : List Char → List (List Char)
  | [] => []
  | [c] => if isWordChar c then [[c]] else []
  | c :: d :: cs =>
    let ws := unicodeWords (d :: cs)
    if isWordChar c then
      if isWordChar d then (c :: ws.headD []) :: ws.tail
      else [c] :: ws
    else ws

/-- The short-word padding of `make_tri_grams` (src/lib.rs):
`format!("-<3", short_word)` right-pads a word of fewer than 3 characters
with '-' to exactly 3 characters. -/
def padWord3 (w : List Char) : List Char :=
  if w.length < 3 then w ++ List.replicate (3 - w.length) '-' else w

/-- The sliding 3-character windows of `itertools::tuple_windows` as used
by `word_to_trigrams` (src/lib.rs). -/
def tripleWindows : List Char → List (List Char)
  | c1 :: c2 :: c3 :: rest => [c1, c2, c3] :: tripleWindows (c2 :: c3 :: rest)
  | _ => []

/-- `word_to_trigrams` (src/lib.rs): the set of 3-character windows. -/
def word_to_trigrams (w : List Char) : Finset (List Char) :=
  (tripleWindows w).toFinset

/-- `make_tri_grams` (src/lib.rs): normalize, segment into words, pad the
short words, and collect every trigram of every word into one set. -/
def make_tri_grams (s : List Char) : Finset (List Char) :=
  ((unicodeWords (convertString s)).map
    (fun w => word_to_trigrams (padWord3 w))).foldr (fun a b => a ∪ b) ∅

/-- `MAX_STRING_LEN` (src/lib.rs): the capacity ceiling. -/
def MAX_STRING_LEN : Nat := 200

/-- The `short_hash` closure of `generate_hashes_for_string` (src/lib.rs):
SHA-256 over the partition/salt prefix followed by the trigram bytes,
truncated big-endian to 32 bits. The Rust code builds the prefix state
once and clones it per trigram; hashing the concatenated bytes is the
same digest. -/
def short_hash (pre : List Nat) (word : List Nat) : Nat :=
  as_u32_be (sha256 (pre ++ word))

/-- `generate_hashes_for_string` (src/lib.rs): error when the string's byte
length exceeds `MAX_STRING_LEN`, otherwise the set of truncated keyed
hashes of its trigrams. -/
def generate_hashes_for_string (s : List Char) (partition_id : Option (List Char))
    (salt : List Nat) : Except String (Finset Nat) :=
  if MAX_STRING_LEN < byteLen s then
    Except.error "The input string is too long. This function only supports strings that are no longer than 200 chars."
  else
    Except.ok ((make_tri_grams s).image (fun tg =>
      short_hash ((match partition_id with
        | some k => strBytes k
        | none => []) ++ salt) (strBytes tg)))

/-- A draw from `rand`'s `Uniform::new_inclusive(lo, hi)` given one entropy
value: `lo + v % (hi + 1 - lo)`, which lands in `[lo, hi]` and takes each
value in the interval from exactly one residue class of `v`. -/
def uniformIncl (lo hi v : Nat) : Nat := lo + v % (hi + 1 - lo)

/-- A draw from `rand`'s half-open `gen_range(lo, hi)` given one entropy
value: `lo + v % (hi - lo)`, which lands in `[lo, hi - 1]`. -/
def genRange (lo hi v : Nat) : Nat := lo + v % (hi - lo)

/-- The `to_add` draw of `generate_hashes_for_string_with_padding`
(src/lib.rs): the tier roll `prob` picks one of four half-open
`gen_range` draws. -/
def toAddFromProb (prob v : Nat) : Nat :=
  if prob ≤ 1 then genRange 1 200 v
  else if prob ≤ 5 then genRange 1 30 v
  else if prob ≤ 50 then genRange 1 10 v
  else genRange 1 5 v

/-- `generate_hashes_for_string_with_padding` (src/lib.rs): the genuine
hash set, then a tier roll from `ONE_TO_TWO_HUNDRED` (uniform on
`[1, 200]`), a pad count, a clamp to the remaining capacity, and that many
uniform 32-bit draws inserted into the set. The generator behind the mutex
is modelled as the entropy stream `g`, drawn in program order. -/
def generate_hashes_for_string_with_padding (s : List Char)
    (partition_id : Option (List Char)) (salt : List Nat) (g : Nat → Nat) :
    Except String (Finset Nat) :=
  match generate_hashes_for_string s partition_id salt with
  | Except.error e => Except.error e
  | Except.ok hashes =>
    let prob := uniformIncl 1 200 (g 0)
    let to_add := toAddFromProb prob (g 1)
    let pad_len := min (MAX_STRING_LEN - hashes.card) to_add
    Except.ok (hashes ∪
      ((List.range pad_len).map (fun i => uniformIncl 0 4294967295 (g (2 + i)))).toFinset)

deriving instance DecidableEq for Except

theorem tripleWindows_mem_len :
    ∀ l t : List Char, t ∈ tripleWindows l → t.length = 3
  | [], t, ht => by simp [tripleWindows] at ht
  | [_], t, ht => by simp [tripleWindows] at ht
  | [_, _], t, ht => by simp [tripleWindows] at ht
  | a :: b :: c :: r, t, ht => by
    have ih := tripleWindows_mem_len (b :: c :: r) t
    unfold tripleWindows at ht
    rcases List.mem_cons.mp ht with h | h
    · subst h; rfl
    · exact ih h

theorem mem_foldr_union (ts : List (Finset (List Char))) (a : List Char) :
    a ∈ ts.foldr (fun x y => x ∪ y) ∅ ↔ ∃ t ∈ ts, a ∈ t := by
  induction ts with
  | nil => simp
  | cons t ts ih => simp [Finset.mem_union, ih]

theorem one_le_toAddFromProb (prob v : Nat) : 1 ≤ toAddFromProb prob v := by
  unfold toAddFromProb genRange
  split_ifs <;> omega

/-- Uniformity of a shifted modular draw: each value of `[1, n]` is hit by
exactly one entropy class of `[0, n)`. -/
theorem filter_shift_mod_card (n t : Nat) (h1 : 1 ≤ t) (h2 : t ≤ n) :
    ((Finset.range n).filter (fun v => 1 + v % n = t)).card = 1 := by
  have hset : (Finset.range n).filter (fun v => 1 + v % n = t) = {t - 1} := by
    ext v
    simp only [Finset.mem_filter, Finset.mem_range, Finset.mem_singleton]
    constructor
    · rintro ⟨hv, he⟩
      rw [Nat.mod_eq_of_lt hv] at he
      omega
    · intro hv
      subst hv
      have hlt : t - 1 < n := by omega
      rw [Nat.mod_eq_of_lt hlt]
      exact ⟨hlt, by omega⟩
  rw [hset, Finset.card_singleton]

/-! ### Known-answer checks of the SHA-256 embedding (FIPS 180-4 test
vectors), and the remaining unit tests of src/lib.rs replayed. -/

theorem sha256_kat_abc :
    sha256 (strBytes "abc".toList) =
      [0xba, 0x78, 0x16, 0xbf, 0x8f, 0x01, 0xcf, 0xea, 0x41, 0x41, 0x40, 0xde,
       0x5d, 0xae, 0x22, 0x23, 0xb0, 0x03, 0x61, 0xa3, 0x96, 0x17, 0x7a, 0x9c,
       0xb4, 0x10, 0xff, 0x61, 0xf2, 0x00, 0x15, 0xad] := by decide

theorem sha256_kat_empty :
    sha256 [] =
      [0xe3, 0xb0, 0xc4, 0x42, 0x98, 0xfc, 0x1c, 0x14, 0x9a, 0xfb, 0xf4, 0xc8,
       0x99, 0x6f, 0xb9, 0x24, 0x27, 0xae, 0x41, 0xe4, 0x64, 0x9b, 0x93, 0x4c,
       0xa4, 0x95, 0x99, 0x1b, 0x78, 0x52, 0xb8, 0x55] := by decide

theorem as_u32_be_known_result :
    as_u32_be [1, 2, 3, 4] = 16909060 := by decide

theorem make_tri_grams_eliminates_duplicates :
    make_tri_grams "TİRYAKİ TİRYAKİ".toList =
      {"tir".toList, "iry".toList, "rya".toList, "yak".toList, "aki".toList} := by
  decide

theorem make_tri_grams_works_multichar_translate :
    make_tri_grams "志    豪 İ".toList =
      {"zhi".toList, "hao".toList, "i--".toList} := by decide

/-! ### The claims. -/

/-- Claim C4: for every accepted input — the empty string included — and
every partition id, salt and random source, the padded set has at least
one element. -/
theorem padding_floor (s : List Char) (p : Option (List Char)) (salt : List Nat)
    (g : Nat → Nat) (res : Finset Nat)
    (h : generate_hashes_for_string_with_padding s p salt g = Except.ok res) :
    1 ≤ res.card := by
  unfold generate_hashes_for_string_with_padding at h
  rcases hg : generate_hashes_for_string s p salt with e | hashes
  · rw [hg] at h; exact absurd h (by simp)
  · rw [hg] at h
    simp only [Except.ok.injEq] at h
    subst h
    rcases Nat.eq_zero_or_pos hashes.card with h0 | hpos
    · have hadd := one_le_toAddFromProb (uniformIncl 1 200 (g 0)) (g 1)
      have hlen : 0 < min (MAX_STRING_LEN - hashes.card)
          (toAddFromProb (uniformIncl 1 200 (g 0)) (g 1)) := by
        unfold MAX_STRING_LEN; omega
      refine Finset.card_pos.mpr ⟨uniformIncl 0 4294967295 (g (2 + 0)), ?_⟩
      refine Finset.mem_union_right _ (List.mem_toFinset.mpr ?_)
      exact List.mem_map_of_mem _ (List.mem_range.mpr hlen)
    · exact le_trans hpos (Finset.card_le_card Finset.subset_union_left)

theorem padding_floor_inst : 1 ≤ ({0} : Finset Nat).card :=
  padding_floor [] none [] (fun _ => 0) {0} (by decide)

/-- Claim C5: `generate_hashes_for_string "123" (some "foo") [0]` returns
exactly the singleton of the big-endian 32-bit truncation of the SHA-256
digest of the bytes of "foo", then the byte 0, then the bytes of "123". -/
theorem known_value_123_foo :
    generate_hashes_for_string "123".toList (some "foo".toList) [0] =
      Except.ok {as_u32_be (sha256 (strBytes "foo".toList ++ [0] ++ strBytes "123".toList))} := by
  decide

/-- Claim C6: the tier roll (`ONE_TO_TWO_HUNDRED`) always lands in
`[1, 200]` and takes each value there from exactly one entropy residue
class (uniformly); for tier rolls `≤ 1`, in `[2, 5]`, in `[6, 50]` and
`≥ 51` the requested pad count `toAddFromProb` is drawn, in the same
one-residue-class-per-value sense, uniformly from `[1, 199]`, `[1, 29]`,
`[1, 9]` and `[1, 4]` respectively. -/
theorem tier_distribution :
    (∀ v : Nat, uniformIncl 1 200 v ∈ Finset.Icc 1 200) ∧
    (∀ t ∈ Finset.Icc 1 200,
      ((Finset.range 200).filter (fun v => uniformIncl 1 200 v = t)).card = 1) ∧
    (∀ prob v : Nat, prob ≤ 1 → toAddFromProb prob v ∈ Finset.Icc 1 199) ∧
    (∀ t ∈ Finset.Icc 1 199,
      ((Finset.range 199).filter (fun v => genRange 1 200 v = t)).card = 1) ∧
    (∀ prob v : Nat, 2 ≤ prob → prob ≤ 5 → toAddFromProb prob v ∈ Finset.Icc 1 29) ∧
    (∀ t ∈ Finset.Icc 1 29,
      ((Finset.range 29).filter (fun v => genRange 1 30 v = t)).card = 1) ∧
    (∀ prob v : Nat, 6 ≤ prob → prob ≤ 50 → toAddFromProb prob v ∈ Finset.Icc 1 9) ∧
    (∀ t ∈ Finset.Icc 1 9,
      ((Finset.range 9).filter (fun v => genRange 1 10 v = t)).card = 1) ∧
    (∀ prob v : Nat, 51 ≤ prob → toAddFromProb prob v ∈ Finset.Icc 1 4) ∧
    (∀ t ∈ Finset.Icc 1 4,
      ((Finset.range 4).filter (fun v => genRange 1 5 v = t)).card = 1) := by
  refine ⟨?_,
    fun t ht => filter_shift_mod_card 200 t (Finset.mem_Icc.mp ht).1 (Finset.mem_Icc.mp ht).2,
    ?_,
    fun t ht => filter_shift_mod_card 199 t (Finset.mem_Icc.mp ht).1 (Finset.mem_Icc.mp ht).2,
    ?_,
    fun t ht => filter_shift_mod_card 29 t (Finset.mem_Icc.mp ht).1 (Finset.mem_Icc.mp ht).2,
    ?_,
    fun t ht => filter_shift_mod_card 9 t (Finset.mem_Icc.mp ht).1 (Finset.mem_Icc.mp ht).2,
    ?_,
    fun t ht => filter_shift_mod_card 4 t (Finset.mem_Icc.mp ht).1 (Finset.mem_Icc.mp ht).2⟩
  · intro v
    have hm := Nat.mod_lt v (show 0 < 200 by norm_num)
    simp only [uniformIncl, Finset.mem_Icc]
    omega
  · intro prob v hp
    have hm := Nat.mod_lt v (show 0 < 199 by norm_num)
    simp only [toAddFromProb, genRange, if_pos hp, Finset.mem_Icc]
    omega
  · intro prob v hp2 hp5
    have hm := Nat.mod_lt v (show 0 < 29 by norm_num)
    simp only [toAddFromProb, genRange, Finset.mem_Icc]
    rw [if_neg (by omega), if_pos hp5]
    omega
  · intro prob v hp6 hp50
    have hm := Nat.mod_lt v (show 0 < 9 by norm_num)
    simp only [toAddFromProb, genRange, Finset.mem_Icc]
    rw [if_neg (by omega), if_neg (by omega), if_pos hp50]
    omega
  · intro prob v hp51
    have hm := Nat.mod_lt v (show 0 < 4 by norm_num)
    simp only [toAddFromProb, genRange, Finset.mem_Icc]
    rw [if_neg (by omega), if_neg (by omega), if_neg (by omega)]
    omega

/-- Claim C7: the trigram extractor's literal cases: "five" yields exactly
fiv and ive, and the mixed multi-word string with hyphens yields the
fourteen trigrams of the spec, the hyphenated digit runs merged. -/
theorem trigram_literal_cases :
    make_tri_grams "five".toList = {"fiv".toList, "ive".toList} ∧
    make_tri_grams "123 José  Núñez 812-111-7654".toList =
      {"123".toList, "jos".toList, "ose".toList, "nun".toList, "une".toList,
       "nez".toList, "812".toList, "121".toList, "211".toList, "111".toList,
       "117".toList, "176".toList, "765".toList, "654".toList} :=
  ⟨by decide, by decide⟩

/-- Claim C8: a segmented word of fewer than 3 characters is right-padded
with '-' to exactly 3 (a single character c becomes [c, -, -]); a word of
exactly 3 characters yields the one trigram equal to itself; every member
of a trigram set has exactly 3 characters; and "Tİ" yields exactly
"ti-". -/
theorem short_word_padding :
    (∀ s t : List Char, t ∈ make_tri_grams s → t.length = 3) ∧
    (∀ c : Char, padWord3 [c] = [c, '-', '-']) ∧
    (∀ w : List Char, w.length = 3 → word_to_trigrams w = {w}) ∧
    make_tri_grams "Tİ".toList = {"ti-".toList} := by
  refine ⟨?_, fun c => rfl, ?_, by decide⟩
  · intro s t ht
    unfold make_tri_grams at ht
    rw [mem_foldr_union] at ht
    obtain ⟨ts, hts, hmem⟩ := ht
    obtain ⟨w, _, hw⟩ := List.mem_map.mp hts
    subst hw
    exact tripleWindows_mem_len _ t (List.mem_toFinset.mp hmem)
  · intro w hw
    obtain ⟨a, b, c, rfl⟩ := List.length_eq_three.mp hw
    rfl

/-- Claim C9: the normalization stage is total and structural: a filtered
character is removed outright, any other character contributes exactly its
lowercased transliteration when one exists and is kept verbatim (no case
folding) otherwise, in input order; the concrete case shows removal
merging, multi-character expansion and verbatim fallback at once. -/
theorem normalizer_behavior :
    (∀ c : Char, ∀ s : List Char, c ∈ FILTERED_CHARS →
      convertString (c :: s) = convertString s) ∧
    (∀ c : Char, ∀ s : List Char, c ∉ FILTERED_CHARS →
      convertString (c :: s) = char_to_trans c ++ convertString s) ∧
    (∀ c : Char, unidecode_char c ≠ [] →
      char_to_trans c = (unidecode_char c).map Char.toLower) ∧
    (∀ c : Char, unidecode_char c = [] → char_to_trans c = [c]) ∧
    convertString "A志!b𐊮".toList = "azhi b𐊮".toList := by
  refine ⟨?_, ?_, ?_, ?_, by decide⟩
  · intro c s hc
    have hk : should_keep_char c = false := by
      simp [should_keep_char, List.elem_iff, hc]
    simp [convertString, List.filter_cons, hk]
  · intro c s hc
    have hk : should_keep_char c = true := by
      simp [should_keep_char, List.elem_iff, hc]
    simp [convertString, List.filter_cons, hk]
  · intro c hc
    simp [char_to_trans, hc]
  · intro c hc
    simp [char_to_trans, hc]

/-- Claim C10: `generate_hashes_for_string` errors exactly when the UTF-8
byte length exceeds 200 — the check is on bytes, not characters, as the
101-character but 202-byte string of 'é' shows — and an accepted string
has no other failure path. -/
theorem length_check_in_bytes :
    (∀ (s : List Char) (p : Option (List Char)) (salt : List Nat),
      (∃ e, generate_hashes_for_string s p salt = Except.error e) ↔
        MAX_STRING_LEN < byteLen s) ∧
    (List.replicate 101 'é').length ≤ 200 ∧
    MAX_STRING_LEN < byteLen (List.replicate 101 'é') ∧
    (∃ e, generate_hashes_for_string (List.replicate 101 'é') none [] =
      Except.error e) := by
  have hiff : ∀ (s : List Char) (p : Option (List Char)) (salt : List Nat),
      (∃ e, generate_hashes_for_string s p salt = Except.error e) ↔
        MAX_STRING_LEN < byteLen s := by
    intro s p salt
    constructor
    · rintro ⟨e, he⟩
      by_contra hb
      unfold generate_hashes_for_string at he
      rw [if_neg hb] at he
      exact absurd he (by simp)
    · intro hb
      refine ⟨"The input string is too long. This function only supports strings that are no longer than 200 chars.", ?_⟩
      unfold generate_hashes_for_string
      exact if_pos hb
  refine ⟨hiff, by decide, by decide, (hiff _ none []).mpr (by decide)⟩
